import Mathlib

/-!
A shallow embedding of `src/pytesserae/score.py` (the Tesserae scoring core)
together with proofs about it.

Modelling conventions:
* Python `str` tokens are `String`; a frequency dictionary `{str: int}` is an
  association list `List (Term × Nat)` looked up with `List.lookup` (a Python
  dict has unique keys, so the first binding is the binding).
* A Python `set` iterates in an arbitrary but fixed order, so a set of
  matching terms is embedded as the list `tuple(matching_terms)` produced by
  that order; theorems quantify over every such enumeration.
* Exceptions (`KeyError`, `ZeroDivisionError`, `ValueError` raised by
  `math.log` on a non-positive argument and by `min` on an empty sequence,
  `IndexError`) become `Except PyError`; float arithmetic is modelled exactly
  over `ℚ`, and `math.log` is `Real.log` of the cast rational.
-/

/-- The kinds of exception the embedded code can raise. -/
inductive PyError : Type
  | keyError
  | zeroDivisionError
  | valueError
  | indexError
  deriving DecidableEq

instance {ε α : Type} [DecidableEq ε] [DecidableEq α] : DecidableEq (Except ε α) := fun x y =>
  match x, y with
  | .error a, .error b =>
      if h : a = b then .isTrue (congrArg Except.error h)
      else .isFalse (fun hc => h (Except.error.inj hc))
  | .ok a, .ok b =>
      if h : a = b then .isTrue (congrArg Except.ok h)
      else .isFalse (fun hc => h (Except.ok.inj hc))
  | .error _, .ok _ => .isFalse (fun hc => Except.noConfusion hc)
  | .ok _, .error _ => .isFalse (fun hc => Except.noConfusion hc)

abbrev Term := String

/-- A word-count dictionary `{str: int}` scoped to one whole text. -/
abbrev FrequencyTable := List (Term × Nat)

/-- The Python expression `counts[t]`: the value of a key, `KeyError` if the
key is absent. -/
def dictGet (counts : FrequencyTable) (t : Term) : Except PyError Nat :=
  match counts.lookup t with
  | some c => .ok c
  | none => .error .keyError

/-- `sum([v for v in counts.values()])`: the total token count of the text. -/
def totalCount (counts : FrequencyTable) : Nat :=
  (counts.map Prod.snd).sum

/-- The count a key holds in the table (`0` for an absent key); used only to
state properties, never by the embedded code itself. -/
def cnt (counts : FrequencyTable) (t : Term) : Nat :=
  (counts.lookup t).getD 0

/-- Evaluate a Python list comprehension whose element expression can raise:
the first raised exception propagates. -/
def mapExcept {α β : Type} (f : α → Except PyError β) : List α → Except PyError (List β)
  | [] => .ok []
  | a :: as =>
    match f a with
    | .error e => .error e
    | .ok b =>
      match mapExcept f as with
      | .error e => .error e
      | .ok bs => .ok (b :: bs)

/-- A Python `for` loop threading a state, whose body can raise. -/
def foldlExcept {σ α : Type} (f : σ → α → Except PyError σ) (init : σ) :
    List α → Except PyError σ
  | [] => .ok init
  | a :: as =>
    match f init a with
    | .error e => .error e
    | .ok s => foldlExcept f s as

/-- One summand `1 / (counts[t] / size)` of the comprehensions inside
`vanilla`.  The division `counts[t] / size` raises `ZeroDivisionError` when
`size = 0`; otherwise dividing `1` by the resulting float raises
`ZeroDivisionError` exactly when that float is zero, i.e. when
`counts[t] = 0`. -/
def termWeight (counts : FrequencyTable) (size : Nat) (t : Term) : Except PyError ℚ :=
  match dictGet counts t with
  | .error e => .error e
  | .ok c =>
    if size = 0 then .error .zeroDivisionError
    else if c = 0 then .error .zeroDivisionError
    else .ok (1 / ((c : ℚ) / (size : ℚ)))

/-- The body of `vanilla` up to and including the division by
`target_distance + source_distance`: the argument handed to `math.log`. -/
def vanillaRaw (matching_terms : List Term) (source_distance target_distance : ℤ)
    (source_counts target_counts : FrequencyTable) : Except PyError ℚ :=
  let target_size := totalCount target_counts
  let source_size := totalCount source_counts
  match mapExcept (termWeight target_counts target_size) matching_terms with
  | .error e => .error e
  | .ok tws =>
    match mapExcept (termWeight source_counts source_size) matching_terms with
    | .error e => .error e
    | .ok sws =>
      if target_distance + source_distance = 0 then .error .zeroDivisionError
      else .ok ((tws.sum + sws.sum) / ((target_distance : ℚ) + (source_distance : ℚ)))

/-- `vanilla` from `score.py`: `math.log` applied to the raw quotient.
`math.log` raises `ValueError` (math domain error) on a non-positive
argument. -/
noncomputable def vanilla (matching_terms : List Term) (source_distance target_distance : ℤ)
    (source_counts target_counts : FrequencyTable) : Except PyError ℝ :=
  match vanillaRaw matching_terms source_distance target_distance source_counts target_counts with
  | .error e => .error e
  | .ok raw =>
    if raw ≤ 0 then .error .valueError
    else .ok (Real.log (raw : ℝ))

/-- One iteration of the `for term in match_tuple[2:]` loop of
`_get_two_lowest`, after the `counts[term]` lookup produced `tc`. -/
def lowestStep (st : (Term × Nat) × (Term × Nat)) (tc : Term × Nat) :
    (Term × Nat) × (Term × Nat) :=
  if tc.2 < st.1.2 then (tc, st.1)
  else if tc.2 < st.2.2 then (st.1, tc)
  else st

/-- `_get_two_lowest` from `score.py`; the list argument is
`tuple(matching_terms)`. -/
def get_two_lowest (matching_terms : List Term) (counts : FrequencyTable) :
    Except PyError (Term × Term) :=
  match matching_terms with
  | t0 :: t1 :: rest =>
    (match dictGet counts t0 with
     | .error e => .error e
     | .ok c0 =>
       match dictGet counts t1 with
       | .error e => .error e
       | .ok c1 =>
         let init := if c0 > c1 then ((t1, c1), (t0, c0)) else ((t0, c0), (t1, c1))
         match foldlExcept (fun st term =>
             match dictGet counts term with
             | .error e => .error e
             | .ok c => .ok (lowestStep st (term, c))) init rest with
         | .error e => .error e
         | .ok st => .ok (st.1.1, st.2.1))
  | [t0] =>
    (match dictGet counts t0 with
     | .error e => .error e
     | .ok _ => .error .indexError)
  | [] => .error .indexError

/-- `_get_indices` from `score.py`: the 0-based positions at which `term`
occurs in `chunk`, in ascending order. -/
def getIndices (term : Term) (chunk : List Term) : List Nat :=
  (chunk.enum.filter (fun p => p.2 == term)).map Prod.fst

/-- Python `min` over a list of ints; `ValueError` on an empty sequence. -/
def pyMin (l : List ℤ) : Except PyError ℤ :=
  match l with
  | [] => .error .valueError
  | x :: xs => .ok (xs.foldl min x)

/-- The nested `for pos1 ... for pos2 ...` minimum-updating loop at the end
of `find_distance`. -/
def crossMinLoop (pos1 pos2 : List Nat) (start : ℤ) : ℤ :=
  pos1.foldl (fun (m : ℤ) (p1 : Nat) => pos2.foldl (fun (m2 : ℤ) (p2 : Nat) =>
    if |((p2 : ℤ)) - ((p1 : ℤ))| < m2 then |((p2 : ℤ)) - ((p1 : ℤ))| else m2) m) start

/-- `find_distance` from `score.py`. -/
def find_distance (matching_terms : List Term) (chunk : List Term)
    (counts : FrequencyTable) : Except PyError ℤ :=
  match matching_terms with
  | [term] =>
    let positions := getIndices term chunk
    pyMin ((positions.dropLast.zip positions.tail).map (fun p => ((p.2 : ℤ)) - ((p.1 : ℤ))))
  | _ =>
    match get_two_lowest matching_terms counts with
    | .error e => .error e
    | .ok (term1, term2) =>
      let term1_positions := getIndices term1 chunk
      let term2_positions := getIndices term2 chunk
      match term1_positions, term2_positions with
      | p1 :: r1, p2 :: r2 =>
        .ok (crossMinLoop (p1 :: r1) (p2 :: r2) |((p1 : ℤ)) - ((p2 : ℤ))|)
      | _, _ => .error .indexError

/-- Specification-side weight of one side of the score: the sum over the
matching terms of `total / count`, the reciprocal of the whole-text
frequency of each term. -/
def specWeight (counts : FrequencyTable) (matching_terms : List Term) : ℚ :=
  (matching_terms.map (fun t => (totalCount counts : ℚ) / (cnt counts t : ℚ))).sum

/-- Specification-side list of all cross-product distances between two
position lists. -/
def crossDists (pos1 pos2 : List Nat) : List ℤ :=
  pos1.flatMap (fun (p1 : Nat) => pos2.map (fun (p2 : Nat) => |((p2 : ℤ)) - ((p1 : ℤ))|))

section FoldMin

lemma foldl_min_le_init (l : List ℤ) (a : ℤ) : l.foldl min a ≤ a := by
  induction l generalizing a with
  | nil => exact le_refl a
  | cons x xs ih => exact le_trans (ih (min a x)) (min_le_left a x)

lemma foldl_min_le_mem (l : List ℤ) (a : ℤ) (x : ℤ) (hx : x ∈ l) : l.foldl min a ≤ x := by
  induction l generalizing a with
  | nil => cases hx
  | cons y ys ih =>
    rcases List.mem_cons.mp hx with h | h
    · subst h
      exact le_trans (foldl_min_le_init ys (min a x)) (min_le_right a x)
    · exact ih (min a y) h

lemma foldl_min_eq_or_mem (l : List ℤ) (a : ℤ) : l.foldl min a = a ∨ l.foldl min a ∈ l := by
  induction l generalizing a with
  | nil => exact Or.inl rfl
  | cons x xs ih =>
    rcases ih (min a x) with h | h
    · rcases min_choice a x with hm | hm
      · exact Or.inl (by rw [List.foldl_cons, h, hm])
      · exact Or.inr (by rw [List.foldl_cons, h, hm]; exact List.mem_cons_self x xs)
    · exact Or.inr (List.mem_cons_of_mem x h)

lemma ite_lt_eq_min (x m : ℤ) : (if x < m then x else m) = min m x := by
  rcases lt_or_ge x m with h | h
  · rw [if_pos h, min_eq_right h.le]
  · rw [if_neg (not_lt.mpr h), min_eq_left h]

lemma crossMinLoop_eq_foldl (pos1 pos2 : List Nat) (a : ℤ) :
    crossMinLoop pos1 pos2 a = (crossDists pos1 pos2).foldl min a := by
  induction pos1 generalizing a with
  | nil => rfl
  | cons p1 ps ih =>
    have hfun : (fun (m2 : ℤ) (p2 : Nat) =>
        if |((p2 : ℤ)) - ((p1 : ℤ))| < m2 then |((p2 : ℤ)) - ((p1 : ℤ))| else m2) =
        (fun (m2 : ℤ) (p2 : Nat) => min m2 |((p2 : ℤ)) - ((p1 : ℤ))|) := by
      funext m2 p2
      exact ite_lt_eq_min _ m2
    calc crossMinLoop (p1 :: ps) pos2 a
        = crossMinLoop ps pos2 (pos2.foldl (fun (m2 : ℤ) (p2 : Nat) =>
            if |((p2 : ℤ)) - ((p1 : ℤ))| < m2 then |((p2 : ℤ)) - ((p1 : ℤ))| else m2) a) := rfl
      _ = crossMinLoop ps pos2
            ((pos2.map (fun (p2 : Nat) => |((p2 : ℤ)) - ((p1 : ℤ))|)).foldl min a) := by
            rw [hfun, List.foldl_map]
      _ = (crossDists ps pos2).foldl min
            ((pos2.map (fun (p2 : Nat) => |((p2 : ℤ)) - ((p1 : ℤ))|)).foldl min a) := ih _
      _ = (crossDists (p1 :: ps) pos2).foldl min a := by
            simp only [crossDists, List.flatMap_cons, List.foldl_append]

lemma mem_crossDists {pos1 pos2 : List Nat} {d : ℤ} :
    d ∈ crossDists pos1 pos2 ↔
      ∃ p1 ∈ pos1, ∃ p2 ∈ pos2, d = |((p2 : ℤ)) - ((p1 : ℤ))| := by
  simp only [crossDists, List.mem_flatMap, List.mem_map]
  constructor
  · rintro ⟨p1, h1, p2, h2, he⟩
    exact ⟨p1, h1, p2, h2, he.symm⟩
  · rintro ⟨p1, h1, p2, h2, he⟩
    exact ⟨p1, h1, p2, h2, he.symm⟩

lemma pyMin_ok_le {l : List ℤ} {d : ℤ} (h : pyMin l = .ok d) : ∀ x ∈ l, d ≤ x := by
  cases l with
  | nil => cases h
  | cons x xs =>
    have hd : d = xs.foldl min x := by
      have := Except.ok.inj h.symm
      exact this
    intro y hy
    rcases List.mem_cons.mp hy with h1 | h1
    · subst h1; rw [hd]; exact foldl_min_le_init xs y
    · rw [hd]; exact foldl_min_le_mem xs x y h1

lemma pyMin_ok_mem {l : List ℤ} {d : ℤ} (h : pyMin l = .ok d) : d ∈ l := by
  cases l with
  | nil => cases h
  | cons x xs =>
    have hd : d = xs.foldl min x := by
      have := Except.ok.inj h.symm
      exact this
    rcases foldl_min_eq_or_mem xs x with h1 | h1
    · rw [hd, h1]; exact List.mem_cons_self x xs
    · rw [hd]; exact List.mem_cons_of_mem x h1

end FoldMin

section Indices

lemma mem_getIndices {term : Term} {chunk : List Term} {i : Nat} :
    i ∈ getIndices term chunk ↔ chunk[i]? = some term := by
  constructor
  · intro h
    rcases List.mem_map.mp h with ⟨p, hp, rfl⟩
    rcases List.mem_filter.mp hp with ⟨hmem, heq⟩
    have hsome := List.mem_enum_iff_getElem?.mp hmem
    rwa [beq_iff_eq.mp heq] at hsome
  · intro h
    apply List.mem_map.mpr
    refine ⟨(i, term), ?_, rfl⟩
    apply List.mem_filter.mpr
    exact ⟨List.mem_enum_iff_getElem?.mpr h, beq_self_eq_true term⟩

lemma getIndices_pairwise (term : Term) (chunk : List Term) :
    (getIndices term chunk).Pairwise (· < ·) := by
  have hsub : (getIndices term chunk).Sublist (chunk.enum.map Prod.fst) :=
    List.Sublist.map Prod.fst (List.filter_sublist chunk.enum)
  rw [List.enum_map_fst] at hsub
  exact List.Pairwise.sublist hsub (List.pairwise_lt_range chunk.length)

lemma countP_enumFrom (chunk : List Term) (term : Term) :
    ∀ n : Nat, (List.enumFrom n chunk).countP (fun p => p.2 == term) =
      chunk.countP (fun x => x == term) := by
  induction chunk with
  | nil => intro n; rfl
  | cons x xs ih =>
    intro n
    show List.countP _ ((n, x) :: List.enumFrom (n + 1) xs) = _
    rw [List.countP_cons, List.countP_cons, ih (n + 1)]

lemma getIndices_length (term : Term) (chunk : List Term) :
    (getIndices term chunk).length = chunk.count term := by
  rw [getIndices, List.length_map, ← List.countP_eq_length_filter,
    List.enum_eq_enumFrom, countP_enumFrom chunk term 0, List.count_eq_countP]

lemma getIndices_disjoint {t1 t2 : Term} (hne : t1 ≠ t2) {chunk : List Term} {i : Nat}
    (h1 : i ∈ getIndices t1 chunk) (h2 : i ∈ getIndices t2 chunk) : False := by
  have e1 := mem_getIndices.mp h1
  have e2 := mem_getIndices.mp h2
  rw [e1] at e2
  exact hne (Option.some.inj e2)

end Indices


section Weights

lemma cnt_eq_of_lookup {counts : FrequencyTable} {t : Term} {c : Nat}
    (h : counts.lookup t = some c) : cnt counts t = c := by
  rw [cnt, h]
  rfl

lemma termWeight_ok {counts : FrequencyTable} {size : Nat} {t : Term} {c : Nat}
    (hsize : size ≠ 0) (hl : counts.lookup t = some c) (hc : 0 < c) :
    termWeight counts size t = .ok ((size : ℚ) / (cnt counts t : ℚ)) := by
  rw [termWeight, dictGet, hl]
  simp only [hsize, hc.ne.symm, if_false, ite_false]
  rw [one_div_div, cnt_eq_of_lookup hl]

lemma mapExcept_termWeight_ok {counts : FrequencyTable} {size : Nat} {mt : List Term}
    (hsize : size ≠ 0)
    (h : ∀ t ∈ mt, ∃ c, counts.lookup t = some c ∧ 0 < c) :
    mapExcept (termWeight counts size) mt =
      .ok (mt.map (fun t => ((size : ℚ)) / ((cnt counts t : ℚ)))) := by
  induction mt with
  | nil => rfl
  | cons t ts ih =>
    rcases h t (List.mem_cons_self t ts) with ⟨c, hl, hc⟩
    rw [mapExcept, termWeight_ok hsize hl hc,
      ih (fun u hu => h u (List.mem_cons_of_mem t hu))]
    rfl

lemma mapExcept_ok_forall {α β : Type} {f : α → Except PyError β} {l : List α} {bs : List β}
    (h : mapExcept f l = .ok bs) : ∀ a ∈ l, ∃ b, f a = .ok b := by
  induction l generalizing bs with
  | nil => intro a ha; cases ha
  | cons x xs ih =>
    intro a ha
    rw [mapExcept] at h
    rcases hfx : f x with e | b
    · rw [hfx] at h; cases h
    · rw [hfx] at h
      rcases hrec : mapExcept f xs with e | brest
      · rw [hrec] at h; cases h
      · rcases List.mem_cons.mp ha with h1 | h1
        · exact ⟨b, h1 ▸ hfx⟩
        · exact ih hrec a h1

lemma termWeight_ok_lookup {counts : FrequencyTable} {size : Nat} {t : Term} {w : ℚ}
    (h : termWeight counts size t = .ok w) : (counts.lookup t).isSome := by
  rw [termWeight, dictGet] at h
  rcases hl : counts.lookup t with _ | c
  · rw [hl] at h; cases h
  · rfl

lemma mapExcept_termWeight_keyError {counts : FrequencyTable} {size : Nat} {mt : List Term}
    (hsize : size ≠ 0)
    (hpos : ∀ t ∈ mt, ∀ c, counts.lookup t = some c → 0 < c)
    (hmiss : ∃ t ∈ mt, counts.lookup t = none) :
    mapExcept (termWeight counts size) mt = .error .keyError := by
  induction mt with
  | nil => rcases hmiss with ⟨t, ht, _⟩; cases ht
  | cons t ts ih =>
    rcases hl : counts.lookup t with _ | c
    · rw [mapExcept, termWeight, dictGet, hl]
    · have hc : 0 < c := hpos t (List.mem_cons_self t ts) c hl
      rw [mapExcept, termWeight_ok hsize hl hc]
      have hmiss' : ∃ u ∈ ts, counts.lookup u = none := by
        rcases hmiss with ⟨u, hu, hnone⟩
        rcases List.mem_cons.mp hu with h1 | h1
        · subst h1; rw [hl] at hnone; cases hnone
        · exact ⟨u, h1, hnone⟩
      rw [ih (fun u hu => hpos u (List.mem_cons_of_mem t hu)) hmiss']

lemma mapExcept_termWeight_size_zero {counts : FrequencyTable} {mt : List Term}
    (hmt : mt ≠ []) (hall : ∀ t ∈ mt, (counts.lookup t).isSome) :
    mapExcept (termWeight counts 0) mt = .error .zeroDivisionError := by
  cases mt with
  | nil => exact absurd rfl hmt
  | cons t ts =>
    rcases Option.isSome_iff_exists.mp (hall t (List.mem_cons_self t ts)) with ⟨c, hl⟩
    rw [mapExcept, termWeight, dictGet, hl]
    rfl

lemma mapExcept_termWeight_ok_or_zero {counts : FrequencyTable} {size : Nat} {mt : List Term}
    (hall : ∀ t ∈ mt, (counts.lookup t).isSome) :
    (∃ ws, mapExcept (termWeight counts size) mt = .ok ws) ∨
      mapExcept (termWeight counts size) mt = .error .zeroDivisionError := by
  induction mt with
  | nil => exact Or.inl ⟨[], rfl⟩
  | cons t ts ih =>
    rcases Option.isSome_iff_exists.mp (hall t (List.mem_cons_self t ts)) with ⟨c, hl⟩
    by_cases hsize : size = 0
    · subst hsize
      right
      rw [mapExcept, termWeight, dictGet, hl]
      rfl
    · by_cases hc : c = 0
      · subst hc
        right
        rw [mapExcept, termWeight, dictGet, hl]
        simp [hsize]
      · have hw := termWeight_ok hsize hl (Nat.pos_of_ne_zero hc)
        rcases ih (fun u hu => hall u (List.mem_cons_of_mem t hu)) with ⟨ws, hws⟩ | hz
        · left
          exact ⟨_ :: ws, by rw [mapExcept, hw, hws]⟩
        · right
          rw [mapExcept, hw, hz]

lemma specWeight_pos {counts : FrequencyTable} {mt : List Term}
    (hmt : mt ≠ []) (hT : totalCount counts ≠ 0)
    (h : ∀ t ∈ mt, ∃ c, counts.lookup t = some c ∧ 0 < c) :
    0 < specWeight counts mt := by
  apply List.sum_pos
  · intro x hx
    rcases List.mem_map.mp hx with ⟨t, ht, rfl⟩
    rcases h t ht with ⟨c, hl, hc⟩
    apply div_pos
    · exact_mod_cast Nat.pos_of_ne_zero hT
    · rw [cnt_eq_of_lookup hl]
      exact_mod_cast hc
  · simpa [List.map_eq_nil_iff] using hmt

lemma vanillaRaw_eval {mt : List Term} {sd td : ℤ} {sc tc : FrequencyTable}
    (hd : td + sd ≠ 0)
    (htc : ∀ t ∈ mt, ∃ c, tc.lookup t = some c ∧ 0 < c)
    (hsc : ∀ t ∈ mt, ∃ c, sc.lookup t = some c ∧ 0 < c)
    (hTt : totalCount tc ≠ 0) (hTs : totalCount sc ≠ 0) :
    vanillaRaw mt sd td sc tc =
      .ok ((specWeight tc mt + specWeight sc mt) / ((td : ℚ) + (sd : ℚ))) := by
  rw [vanillaRaw]
  simp only [mapExcept_termWeight_ok hTt htc, mapExcept_termWeight_ok hTs hsc]
  rw [if_neg hd]
  rfl

lemma vanilla_of_raw_ok {mt : List Term} {sd td : ℤ} {sc tc : FrequencyTable} {q : ℚ}
    (h : vanillaRaw mt sd td sc tc = .ok q) (hq : 0 < q) :
    vanilla mt sd td sc tc = .ok (Real.log (q : ℝ)) := by
  rw [vanilla, h]
  exact if_neg (not_le.mpr hq)

lemma vanilla_of_raw_error {mt : List Term} {sd td : ℤ} {sc tc : FrequencyTable} {e : PyError}
    (h : vanillaRaw mt sd td sc tc = .error e) :
    vanilla mt sd td sc tc = .error e := by
  rw [vanilla, h]

lemma vanilla_eval {mt : List Term} {sd td : ℤ} {sc tc : FrequencyTable}
    (hmt : mt ≠ []) (hsd : 0 < sd) (htd : 0 < td)
    (htc : ∀ t ∈ mt, ∃ c, tc.lookup t = some c ∧ 0 < c)
    (hsc : ∀ t ∈ mt, ∃ c, sc.lookup t = some c ∧ 0 < c)
    (hTt : totalCount tc ≠ 0) (hTs : totalCount sc ≠ 0) :
    vanilla mt sd td sc tc =
      .ok (Real.log (((specWeight tc mt + specWeight sc mt) / ((td : ℚ) + (sd : ℚ)) : ℚ) : ℝ)) := by
  have hd : td + sd ≠ 0 := by positivity
  apply vanilla_of_raw_ok (vanillaRaw_eval hd htc hsc hTt hTs)
  apply div_pos
  · exact add_pos (specWeight_pos hmt hTt htc) (specWeight_pos hmt hTs hsc)
  · have h1 : (0 : ℚ) < (td : ℚ) := by exact_mod_cast htd
    have h2 : (0 : ℚ) < (sd : ℚ) := by exact_mod_cast hsd
    exact add_pos h1 h2

end Weights

section TwoLowest

/-- The pure state update of the `_get_two_lowest` loop, with lookups already
resolved through `cnt`. -/
def lowestStepPure (counts : FrequencyTable) (st : (Term × Nat) × (Term × Nat))
    (term : Term) : (Term × Nat) × (Term × Nat) :=
  lowestStep st (term, cnt counts term)

/-- Loop invariant of `_get_two_lowest`: the held pair consists of two
distinct already-visited terms carrying their true counts, the first count is
the smaller, and every other visited term counts at least as much as the
second. -/
def TwoLowestInv (counts : FrequencyTable) (processed : List Term)
    (st : (Term × Nat) × (Term × Nat)) : Prop :=
  st.1.1 ∈ processed ∧ st.2.1 ∈ processed ∧ st.1.1 ≠ st.2.1 ∧
    st.1.2 = cnt counts st.1.1 ∧ st.2.2 = cnt counts st.2.1 ∧
    st.1.2 ≤ st.2.2 ∧
    ∀ t ∈ processed, t ≠ st.1.1 → t ≠ st.2.1 → st.2.2 ≤ cnt counts t

lemma lowestStepPure_inv {counts : FrequencyTable} {processed : List Term}
    {st : (Term × Nat) × (Term × Nat)} {r : Term}
    (hinv : TwoLowestInv counts processed st) (hr : r ∉ processed) :
    TwoLowestInv counts (processed ++ [r]) (lowestStepPure counts st r) := by
  obtain ⟨h1m, h2m, hne, he1, he2, hle, hmin⟩ := hinv
  have hr1 : r ≠ st.1.1 := fun h => hr (h ▸ h1m)
  have hr2 : r ≠ st.2.1 := fun h => hr (h ▸ h2m)
  rw [lowestStepPure, lowestStep]
  by_cases hc1 : cnt counts r < st.1.2
  · rw [if_pos hc1]
    refine ⟨List.mem_append_right processed (List.mem_singleton.mpr rfl),
      List.mem_append_left _ h1m, hr1, rfl, he1, le_of_lt hc1, ?_⟩
    intro t ht htr ht1
    rcases List.mem_append.mp ht with h | h
    · by_cases ht2 : t = st.2.1
      · rw [ht2, ← he2]; exact hle
      · exact le_trans hle (hmin t h ht1 ht2)
    · exact absurd (List.mem_singleton.mp h) htr
  · rw [if_neg hc1]
    by_cases hc2 : cnt counts r < st.2.2
    · rw [if_pos hc2]
      refine ⟨List.mem_append_left _ h1m,
        List.mem_append_right processed (List.mem_singleton.mpr rfl), hr1.symm,
        he1, rfl, not_lt.mp hc1, ?_⟩
      intro t ht ht1 htr
      rcases List.mem_append.mp ht with h | h
      · by_cases ht2 : t = st.2.1
        · rw [ht2, ← he2]; exact le_of_lt hc2
        · exact le_trans (le_of_lt hc2) (hmin t h ht1 ht2)
      · exact absurd (List.mem_singleton.mp h) htr
    · rw [if_neg hc2]
      refine ⟨List.mem_append_left _ h1m, List.mem_append_left _ h2m, hne,
        he1, he2, hle, ?_⟩
      intro t ht ht1 ht2
      rcases List.mem_append.mp ht with h | h
      · exact hmin t h ht1 ht2
      · rw [List.mem_singleton.mp h]
        exact not_lt.mp hc2

lemma foldl_lowest_inv (counts : FrequencyTable) (rest : List Term) :
    ∀ (processed : List Term) (st : (Term × Nat) × (Term × Nat)),
      TwoLowestInv counts processed st →
      (∀ t ∈ rest, t ∉ processed) → rest.Nodup →
      TwoLowestInv counts (processed ++ rest)
        (rest.foldl (lowestStepPure counts) st) := by
  induction rest with
  | nil =>
    intro processed st hinv _ _
    simpa using hinv
  | cons r rs ih =>
    intro processed st hinv hdisj hnd
    rcases List.nodup_cons.mp hnd with ⟨hrs, hnd2⟩
    have hr : r ∉ processed := hdisj r (List.mem_cons_self r rs)
    have hstep := lowestStepPure_inv hinv hr
    have hdisj2 : ∀ t ∈ rs, t ∉ processed ++ [r] := by
      intro t ht hmem
      rcases List.mem_append.mp hmem with h | h
      · exact hdisj t (List.mem_cons_of_mem r ht) h
      · exact hrs (List.mem_singleton.mp h ▸ ht)
    have hrec := ih (processed ++ [r]) (lowestStepPure counts st r) hstep hdisj2 hnd2
    rw [List.append_assoc] at hrec
    simpa using hrec

lemma foldlExcept_lowest_ok (counts : FrequencyTable) (rest : List Term) :
    ∀ init, (∀ t ∈ rest, (counts.lookup t).isSome) →
      foldlExcept (fun st term =>
          match dictGet counts term with
          | .error e => .error e
          | .ok c => .ok (lowestStep st (term, c))) init rest =
        .ok (rest.foldl (lowestStepPure counts) init) := by
  induction rest with
  | nil => intro init _; rfl
  | cons r rs ih =>
    intro init hall
    rcases Option.isSome_iff_exists.mp (hall r (List.mem_cons_self r rs)) with ⟨c, hl⟩
    rw [foldlExcept, dictGet, hl]
    show foldlExcept _ (lowestStep init (r, c)) rs = _
    rw [ih (lowestStep init (r, c)) (fun t ht => hall t (List.mem_cons_of_mem r ht)),
      List.foldl_cons]
    show _ = .ok (List.foldl _ (lowestStep init (r, cnt counts r)) rs)
    rw [cnt_eq_of_lookup hl]

lemma foldlExcept_lowest_ok_inv (counts : FrequencyTable) (rest : List Term) :
    ∀ init st, foldlExcept (fun st term =>
        match dictGet counts term with
        | .error e => .error e
        | .ok c => .ok (lowestStep st (term, c))) init rest = .ok st →
      ∀ t ∈ rest, (counts.lookup t).isSome := by
  induction rest with
  | nil => intro init st _ t ht; cases ht
  | cons r rs ih =>
    intro init st h t ht
    rw [foldlExcept, dictGet] at h
    rcases hl : counts.lookup r with _ | c
    · rw [hl] at h; cases h
    · rw [hl] at h
      rcases List.mem_cons.mp ht with h1 | h1
      · rw [h1, hl]; rfl
      · exact ih (lowestStep init (r, c)) st h t h1

lemma get_two_lowest_ok_spec {mt : List Term} {counts : FrequencyTable} {t1 t2 : Term}
    (h : get_two_lowest mt counts = .ok (t1, t2)) (hnd : mt.Nodup) :
    t1 ∈ mt ∧ t2 ∈ mt ∧ t1 ≠ t2 ∧ cnt counts t1 ≤ cnt counts t2 ∧
      ∀ t ∈ mt, t ≠ t1 → t ≠ t2 → cnt counts t2 ≤ cnt counts t := by
  cases mt with
  | nil => cases h
  | cons t0 tl =>
    cases tl with
    | nil =>
      rw [get_two_lowest, dictGet] at h
      rcases hl : counts.lookup t0 with _ | c
      · rw [hl] at h; cases h
      · rw [hl] at h; cases h
    | cons u rest =>
      rcases hl0 : counts.lookup t0 with _ | c0
      · have hd0 : dictGet counts t0 = .error .keyError := by rw [dictGet, hl0]
        rw [get_two_lowest, hd0] at h
        cases h
      have hd0 : dictGet counts t0 = .ok c0 := by rw [dictGet, hl0]
      rcases hl1 : counts.lookup u with _ | c1
      · have hd1 : dictGet counts u = .error .keyError := by rw [dictGet, hl1]
        simp only [get_two_lowest, hd0, hd1] at h
        cases h
      have hd1 : dictGet counts u = .ok c1 := by rw [dictGet, hl1]
      rcases hfold : foldlExcept (fun st term =>
          match dictGet counts term with
          | .error e => .error e
          | .ok c => .ok (lowestStep st (term, c)))
          (if c0 > c1 then ((u, c1), (t0, c0)) else ((t0, c0), (u, c1))) rest
        with e | stf
      · simp only [get_two_lowest, hd0, hd1, hfold] at h
        cases h
      simp only [get_two_lowest, hd0, hd1, hfold, Except.ok.injEq,
        Prod.mk.injEq] at h
      obtain ⟨hp1, hp2⟩ := h
      have hall : ∀ t ∈ rest, (counts.lookup t).isSome :=
        foldlExcept_lowest_ok_inv counts rest _ _ hfold
      have hpure := foldlExcept_lowest_ok counts rest
        (if c0 > c1 then ((u, c1), (t0, c0)) else ((t0, c0), (u, c1))) hall
      rw [hpure] at hfold
      have hstf : stf = rest.foldl (lowestStepPure counts)
          (if c0 > c1 then ((u, c1), (t0, c0)) else ((t0, c0), (u, c1))) :=
        (Except.ok.inj hfold).symm
      have ht0u : t0 ≠ u := by
        intro he
        exact (List.nodup_cons.mp hnd).1 (he ▸ List.mem_cons_self u rest)
      have hinv0 : TwoLowestInv counts [t0, u]
          (if c0 > c1 then ((u, c1), (t0, c0)) else ((t0, c0), (u, c1))) := by
        by_cases hgt : c0 > c1
        · rw [if_pos hgt]
          exact ⟨List.mem_cons_of_mem t0 (List.mem_cons_self u []),
            List.mem_cons_self t0 [u], fun he => ht0u he.symm,
            (cnt_eq_of_lookup hl1).symm, (cnt_eq_of_lookup hl0).symm,
            le_of_lt hgt, by
              intro t ht htu ht0
              rcases List.mem_cons.mp ht with h1 | h1
              · exact absurd h1 ht0
              · exact absurd (List.mem_singleton.mp h1) htu⟩
        · rw [if_neg hgt]
          exact ⟨List.mem_cons_self t0 [u],
            List.mem_cons_of_mem t0 (List.mem_cons_self u []), ht0u,
            (cnt_eq_of_lookup hl0).symm, (cnt_eq_of_lookup hl1).symm,
            not_lt.mp hgt, by
              intro t ht ht0 htu
              rcases List.mem_cons.mp ht with h1 | h1
              · exact absurd h1 ht0
              · exact absurd (List.mem_singleton.mp h1) htu⟩
      have hdisj : ∀ t ∈ rest, t ∉ [t0, u] := by
        intro t ht hmem
        rcases List.mem_cons.mp hmem with h1 | h1
        · exact (List.nodup_cons.mp hnd).1 (h1 ▸ List.mem_cons_of_mem u ht)
        · exact (List.nodup_cons.mp (List.nodup_cons.mp hnd).2).1
            (List.mem_singleton.mp h1 ▸ ht)
      have hndrest : rest.Nodup := (List.nodup_cons.mp (List.nodup_cons.mp hnd).2).2
      have hinv := foldl_lowest_inv counts rest [t0, u] _ hinv0 hdisj hndrest
      rw [← hstf] at hinv
      obtain ⟨h1m, h2m, hne, he1, he2, hle, hmin⟩ := hinv
      have hmteq : t0 :: u :: rest = [t0, u] ++ rest := rfl
      rw [hp1] at h1m he1
      rw [hp2] at h2m he2
      rw [hp1, hp2] at hne
      rw [hp1, hp2] at hmin
      rw [hmteq]
      refine ⟨h1m, h2m, hne, ?_, ?_⟩
      · rw [← he1, ← he2]; exact hle
      · intro t ht ht1 ht2
        rw [← he2]
        exact hmin t ht ht1 ht2

lemma get_two_lowest_ok_of_present {mt : List Term} {counts : FrequencyTable}
    (h2 : 2 ≤ mt.length) (hall : ∀ t ∈ mt, (counts.lookup t).isSome) :
    ∃ p, get_two_lowest mt counts = .ok p := by
  cases mt with
  | nil => cases h2
  | cons t0 tl =>
    cases tl with
    | nil =>
      simp at h2
    | cons u rest =>
      rcases Option.isSome_iff_exists.mp (hall t0 (List.mem_cons_self t0 _)) with ⟨c0, hl0⟩
      rcases Option.isSome_iff_exists.mp
        (hall u (List.mem_cons_of_mem t0 (List.mem_cons_self u rest))) with ⟨c1, hl1⟩
      have hrest : ∀ t ∈ rest, (counts.lookup t).isSome := fun t ht =>
        hall t (List.mem_cons_of_mem t0 (List.mem_cons_of_mem u ht))
      have hd0 : dictGet counts t0 = .ok c0 := by rw [dictGet, hl0]
      have hd1 : dictGet counts u = .ok c1 := by rw [dictGet, hl1]
      have hfold := foldlExcept_lowest_ok counts rest
        (if c0 > c1 then ((u, c1), (t0, c0)) else ((t0, c0), (u, c1))) hrest
      refine ⟨((rest.foldl (lowestStepPure counts)
          (if c0 > c1 then ((u, c1), (t0, c0)) else ((t0, c0), (u, c1)))).1.1,
        (rest.foldl (lowestStepPure counts)
          (if c0 > c1 then ((u, c1), (t0, c0)) else ((t0, c0), (u, c1)))).2.1), ?_⟩
      simp only [get_two_lowest, hd0, hd1, hfold]

lemma two_lowest_unique {mt : List Term} {counts : FrequencyTable} {t1 t2 u1 u2 : Term}
    (h1 : t1 ∈ mt) (h2 : t2 ∈ mt) (hne : t2 ≠ t1)
    (hmin1 : ∀ t ∈ mt, t ≠ t1 → cnt counts t1 < cnt counts t)
    (hmin2 : ∀ t ∈ mt, t ≠ t1 → t ≠ t2 → cnt counts t2 < cnt counts t)
    (hu1 : u1 ∈ mt) (hu2 : u2 ∈ mt) (hune : u1 ≠ u2)
    (hle : cnt counts u1 ≤ cnt counts u2)
    (humin : ∀ t ∈ mt, t ≠ u1 → t ≠ u2 → cnt counts u2 ≤ cnt counts t) :
    u1 = t1 ∧ u2 = t2 := by
  have hu1t1 : u1 = t1 := by
    by_contra hne1
    have hlt : cnt counts t1 < cnt counts u1 := hmin1 u1 hu1 hne1
    by_cases ht1u2 : t1 = u2
    · rw [ht1u2] at hlt
      exact absurd (lt_of_le_of_lt hle hlt) (lt_irrefl _)
    · have := humin t1 h1 (fun he => hne1 he.symm) ht1u2
      exact absurd (lt_of_le_of_lt (le_trans hle this) hlt) (lt_irrefl _)
  subst hu1t1
  refine ⟨rfl, ?_⟩
  by_contra hne2
  have hlt : cnt counts t2 < cnt counts u2 := hmin2 u2 hu2 (fun he => hune he.symm) hne2
  have := humin t2 h2 hne (fun he => hne2 he.symm)
  exact absurd (lt_of_lt_of_le hlt this) (lt_irrefl _)

end TwoLowest

section AdjacentDiffs

lemma adjDiffs_length (l : List Nat) :
    ((l.dropLast.zip l.tail).map (fun p => ((p.2 : ℤ)) - ((p.1 : ℤ)))).length =
      l.length - 1 := by
  rw [List.length_map, List.length_zip, List.length_dropLast, List.length_tail, min_self]

lemma adjDiffs_getElem (l : List Nat) (i : Nat) (hi : i + 1 < l.length)
    (h : i < ((l.dropLast.zip l.tail).map (fun p => ((p.2 : ℤ)) - ((p.1 : ℤ)))).length) :
    ((l.dropLast.zip l.tail).map (fun p => ((p.2 : ℤ)) - ((p.1 : ℤ)))).get ⟨i, h⟩ =
      ((l.get ⟨i + 1, hi⟩ : ℤ)) - ((l.get ⟨i, Nat.lt_of_succ_lt hi⟩ : ℤ)) := by
  rw [List.get_eq_getElem, List.getElem_map, List.getElem_zip, List.getElem_dropLast,
    List.getElem_tail]
  simp [List.get_eq_getElem]

end AdjacentDiffs

/-- C3: for a singleton matching-terms set whose term occurs at least twice
in the chunk, `find_distance` returns the minimum adjacent gap
`position[i+1] - position[i]` over the ascending list of the term's chunk
positions. -/
theorem C3_single_term_min_gap (x : Term) (chunk : List Term) (counts : FrequencyTable)
    (hocc : 2 ≤ chunk.count x) :
    ∃ d, find_distance [x] chunk counts = .ok d ∧
      (∀ (i : Nat) (hi : i + 1 < (getIndices x chunk).length),
        d ≤ (((getIndices x chunk).get ⟨i + 1, hi⟩ : ℤ)) -
          (((getIndices x chunk).get ⟨i, Nat.lt_of_succ_lt hi⟩ : ℤ))) ∧
      (∃ (i : Nat) (hi : i + 1 < (getIndices x chunk).length),
        d = (((getIndices x chunk).get ⟨i + 1, hi⟩ : ℤ)) -
          (((getIndices x chunk).get ⟨i, Nat.lt_of_succ_lt hi⟩ : ℤ))) := by
  have hlen : 2 ≤ (getIndices x chunk).length := by rw [getIndices_length]; exact hocc
  have hdlen := adjDiffs_length (getIndices x chunk)
  rcases hde : ((getIndices x chunk).dropLast.zip (getIndices x chunk).tail).map
      (fun p => ((p.2 : ℤ)) - ((p.1 : ℤ))) with _ | ⟨y, ys⟩
  · rw [hde] at hdlen
    simp only [List.length_nil] at hdlen
    omega
  · have hpm : pyMin (((getIndices x chunk).dropLast.zip (getIndices x chunk).tail).map
        (fun p => ((p.2 : ℤ)) - ((p.1 : ℤ)))) = .ok (ys.foldl min y) := by
      rw [hde]; rfl
    have hfd : find_distance [x] chunk counts = .ok (ys.foldl min y) := by
      simp only [find_distance]
      exact hpm
    refine ⟨ys.foldl min y, hfd, ?_, ?_⟩
    · intro i hi
      have hib : i < (((getIndices x chunk).dropLast.zip (getIndices x chunk).tail).map
          (fun p => ((p.2 : ℤ)) - ((p.1 : ℤ)))).length := by
        rw [adjDiffs_length]
        omega
      have helem := adjDiffs_getElem (getIndices x chunk) i hi hib
      have hmem := List.get_mem (((getIndices x chunk).dropLast.zip
        (getIndices x chunk).tail).map (fun p => ((p.2 : ℤ)) - ((p.1 : ℤ)))) i hib
      have hle := pyMin_ok_le hpm _ hmem
      rwa [helem] at hle
    · have hdm := pyMin_ok_mem hpm
      rcases List.mem_iff_getElem.mp hdm with ⟨n, hn, he⟩
      have hn2 : n + 1 < (getIndices x chunk).length := by
        rw [adjDiffs_length] at hn
        omega
      refine ⟨n, hn2, ?_⟩
      have := adjDiffs_getElem (getIndices x chunk) n hn2 hn
      rw [List.get_eq_getElem] at this
      rw [← he, this]

/-- C3 witness: the chunk gives term `x` the positions `[2, 5, 6, 10]` and
the returned minimal gap is `1`. -/
theorem C3_witness :
    (2 ≤ List.count "x" ["a", "b", "x", "c", "d", "x", "x", "e", "f", "g", "x"]) ∧
    find_distance ["x"] ["a", "b", "x", "c", "d", "x", "x", "e", "f", "g", "x"] [] = .ok 1 ∧
    (∃ d, find_distance ["x"] ["a", "b", "x", "c", "d", "x", "x", "e", "f", "g", "x"] [] =
        .ok d ∧
      (∀ (i : Nat) (hi : i + 1 <
          (getIndices "x" ["a", "b", "x", "c", "d", "x", "x", "e", "f", "g", "x"]).length),
        d ≤ (((getIndices "x" ["a", "b", "x", "c", "d", "x", "x", "e", "f", "g", "x"]).get
            ⟨i + 1, hi⟩ : ℤ)) -
          (((getIndices "x" ["a", "b", "x", "c", "d", "x", "x", "e", "f", "g", "x"]).get
            ⟨i, Nat.lt_of_succ_lt hi⟩ : ℤ))) ∧
      (∃ (i : Nat) (hi : i + 1 <
          (getIndices "x" ["a", "b", "x", "c", "d", "x", "x", "e", "f", "g", "x"]).length),
        d = (((getIndices "x" ["a", "b", "x", "c", "d", "x", "x", "e", "f", "g", "x"]).get
            ⟨i + 1, hi⟩ : ℤ)) -
          (((getIndices "x" ["a", "b", "x", "c", "d", "x", "x", "e", "f", "g", "x"]).get
            ⟨i, Nat.lt_of_succ_lt hi⟩ : ℤ)))) :=
  ⟨by decide, by decide,
    C3_single_term_min_gap "x" ["a", "b", "x", "c", "d", "x", "x", "e", "f", "g", "x"] []
      (by decide)⟩

/-- C8: for a singleton matching-terms set whose term occurs fewer than two
times in the chunk, `find_distance` raises an error (Python: `ValueError`
from `min` of an empty sequence) rather than returning an integer. -/
theorem C8_single_term_insufficient (x : Term) (chunk : List Term)
    (counts : FrequencyTable) (hocc : chunk.count x < 2) :
    find_distance [x] chunk counts = .error .valueError := by
  have hlen : (getIndices x chunk).length < 2 := by rw [getIndices_length]; exact hocc
  simp only [find_distance]
  rcases hp : getIndices x chunk with _ | ⟨a, tl⟩
  · rfl
  · rcases tl with _ | ⟨b, t⟩
    · rfl
    · have h2 : ((a :: b :: t) : List Nat).length < 2 := by rw [← hp]; exact hlen
      simp only [List.length_cons] at h2
      omega

/-- C8 witness: a chunk containing the term exactly once. -/
theorem C8_witness :
    List.count "x" ["a", "x", "b"] < 2 ∧
      find_distance ["x"] ["a", "x", "b"] [] = .error .valueError :=
  ⟨by decide, C8_single_term_insufficient "x" ["a", "x", "b"] [] (by decide)⟩

/-- C9: whenever `find_distance` returns a value on a duplicate-free set of
matching terms, that value is a non-negative integer, and in fact at least 1:
position lists are strictly ascending, and in the multi-term case the two
selected terms are distinct and so never share a position. -/
theorem C9_distance_at_least_one (mt chunk : List Term) (counts : FrequencyTable)
    (hnd : mt.Nodup) (d : ℤ) (h : find_distance mt chunk counts = .ok d) :
    1 ≤ d := by
  cases mt with
  | nil =>
    have he : find_distance ([] : List Term) chunk counts = .error .indexError := rfl
    rw [he] at h
    cases h
  | cons t0 tl =>
    cases tl with
    | nil =>
      simp only [find_distance] at h
      have hdm := pyMin_ok_mem h
      rcases List.mem_iff_getElem.mp hdm with ⟨n, hn, he⟩
      have hn2 : n + 1 < (getIndices t0 chunk).length := by
        have := adjDiffs_length (getIndices t0 chunk)
        omega
      have hval := adjDiffs_getElem (getIndices t0 chunk) n hn2 hn
      rw [List.get_eq_getElem] at hval
      rw [hval] at he
      have hpw := getIndices_pairwise t0 chunk
      have hlt : (getIndices t0 chunk).get ⟨n, Nat.lt_of_succ_lt hn2⟩ <
          (getIndices t0 chunk).get ⟨n + 1, hn2⟩ := by
        rw [List.get_eq_getElem, List.get_eq_getElem]
        exact List.pairwise_iff_getElem.mp hpw n (n + 1) (Nat.lt_of_succ_lt hn2) hn2
          (Nat.lt_succ_self n)
      have hcast : ((((getIndices t0 chunk).get ⟨n, Nat.lt_of_succ_lt hn2⟩ : Nat)) : ℤ) <
          (((getIndices t0 chunk).get ⟨n + 1, hn2⟩ : Nat) : ℤ) := by exact_mod_cast hlt
      omega
    | cons u rest =>
      simp only [find_distance] at h
      rcases hgl : get_two_lowest (t0 :: u :: rest) counts with e | p
      · rw [hgl] at h
        cases h
      rcases p with ⟨u1, u2⟩
      obtain ⟨h1m, h2m, hne, hle, hmin⟩ := get_two_lowest_ok_spec hgl hnd
      simp only [hgl] at h
      have hbound : ∀ q1 ∈ getIndices u1 chunk, ∀ q2 ∈ getIndices u2 chunk,
          1 ≤ |((q2 : ℤ)) - ((q1 : ℤ))| := by
        intro q1 hq1 q2 hq2
        have hqe : q1 ≠ q2 := fun heq => getIndices_disjoint hne hq1 (heq ▸ hq2)
        have hsub : ((q2 : ℤ)) - ((q1 : ℤ)) ≠ 0 := by
          intro heq
          apply hqe
          have h12 : ((q1 : ℤ)) = ((q2 : ℤ)) := by omega
          exact_mod_cast h12
        exact Int.one_le_abs hsub
      rcases hp1 : getIndices u1 chunk with _ | ⟨p1, r1⟩
      · simp only [hp1] at h
        cases h
      rcases hp2 : getIndices u2 chunk with _ | ⟨p2, r2⟩
      · simp only [hp1, hp2] at h
        cases h
      simp only [hp1, hp2] at h
      have hd : d = crossMinLoop (p1 :: r1) (p2 :: r2) |((p1 : ℤ)) - ((p2 : ℤ))| :=
        (Except.ok.inj h).symm
      rw [crossMinLoop_eq_foldl] at hd
      rcases foldl_min_eq_or_mem (crossDists (p1 :: r1) (p2 :: r2))
          |((p1 : ℤ)) - ((p2 : ℤ))| with hcase | hcase
      · rw [hd, hcase, abs_sub_comm]
        exact hbound p1 (by rw [hp1]; exact List.mem_cons_self p1 r1)
          p2 (by rw [hp2]; exact List.mem_cons_self p2 r2)
      · rw [← hd] at hcase
        rcases mem_crossDists.mp hcase with ⟨q1, hq1, q2, hq2, heq⟩
        rw [heq]
        exact hbound q1 (by rw [hp1]; exact hq1) q2 (by rw [hp2]; exact hq2)

/-- C9 witness: a concrete multi-term call returning distance 1. -/
theorem C9_witness :
    (["a", "b"] : List Term).Nodup ∧
      find_distance ["a", "b"] ["a", "z", "z", "z", "b", "z", "z", "z", "z", "z", "a", "b"]
        [("a", 10), ("b", 5)] = .ok 1 ∧
      (1 : ℤ) ≤ 1 :=
  ⟨by decide, by decide,
    C9_distance_at_least_one ["a", "b"]
      ["a", "z", "z", "z", "b", "z", "z", "z", "z", "z", "a", "b"]
      [("a", 10), ("b", 5)] (by decide) 1 (by decide)⟩

/-- C2: with at least two duplicate-free matching terms all present in the
table, whose counts single out a strictly lowest-frequency term `t1` and a
strictly second-lowest term `t2`, and with both position lists non-empty,
`find_distance` returns the minimum of `|p1 - p2|` over the full cross
product of the chunk positions of `t1` and `t2`. -/
theorem C2_cross_product_min (mt chunk : List Term) (counts : FrequencyTable)
    (t1 t2 : Term) (hnd : mt.Nodup)
    (hall : ∀ t ∈ mt, (counts.lookup t).isSome)
    (h1 : t1 ∈ mt) (h2 : t2 ∈ mt) (hne : t2 ≠ t1)
    (hmin1 : ∀ t ∈ mt, t ≠ t1 → cnt counts t1 < cnt counts t)
    (hmin2 : ∀ t ∈ mt, t ≠ t1 → t ≠ t2 → cnt counts t2 < cnt counts t)
    (hpos1 : getIndices t1 chunk ≠ []) (hpos2 : getIndices t2 chunk ≠ []) :
    ∃ d, find_distance mt chunk counts = .ok d ∧
      (∀ q1 ∈ getIndices t1 chunk, ∀ q2 ∈ getIndices t2 chunk,
        d ≤ |((q1 : ℤ)) - ((q2 : ℤ))|) ∧
      (∃ q1 ∈ getIndices t1 chunk, ∃ q2 ∈ getIndices t2 chunk,
        d = |((q1 : ℤ)) - ((q2 : ℤ))|) := by
  cases mt with
  | nil => cases h1
  | cons a tl =>
    cases tl with
    | nil =>
      have e1 : t1 = a := List.mem_singleton.mp h1
      have e2 : t2 = a := List.mem_singleton.mp h2
      exact absurd (e2.trans e1.symm) hne
    | cons b l =>
      have hlen : 2 ≤ (a :: b :: l).length := by
        simp only [List.length_cons]
        omega
      obtain ⟨⟨u1, u2⟩, hgl⟩ := get_two_lowest_ok_of_present hlen hall
      obtain ⟨hu1, hu2, hune, hule, humin⟩ := get_two_lowest_ok_spec hgl hnd
      obtain ⟨e1, e2⟩ := two_lowest_unique h1 h2 hne hmin1 hmin2 hu1 hu2 hune hule humin
      subst e1
      subst e2
      rcases hq1 : getIndices u1 chunk with _ | ⟨p1, r1⟩
      · exact absurd hq1 hpos1
      rcases hq2 : getIndices u2 chunk with _ | ⟨p2, r2⟩
      · exact absurd hq2 hpos2
      refine ⟨crossMinLoop (p1 :: r1) (p2 :: r2) |((p1 : ℤ)) - ((p2 : ℤ))|, ?_, ?_, ?_⟩
      · simp only [find_distance, hgl, hq1, hq2]
      · intro q1 hq1m q2 hq2m
        rw [crossMinLoop_eq_foldl]
        have hmem : |((q2 : ℤ)) - ((q1 : ℤ))| ∈ crossDists (p1 :: r1) (p2 :: r2) :=
          mem_crossDists.mpr ⟨q1, hq1m, q2, hq2m, rfl⟩
        have hle := foldl_min_le_mem (crossDists (p1 :: r1) (p2 :: r2))
          |((p1 : ℤ)) - ((p2 : ℤ))| _ hmem
        rw [abs_sub_comm ((q1 : ℤ)) ((q2 : ℤ))]
        exact hle
      · rw [crossMinLoop_eq_foldl]
        rcases foldl_min_eq_or_mem (crossDists (p1 :: r1) (p2 :: r2))
            |((p1 : ℤ)) - ((p2 : ℤ))| with hc | hc
        · exact ⟨p1, List.mem_cons_self p1 r1, p2, List.mem_cons_self p2 r2, hc⟩
        · rcases mem_crossDists.mp hc with ⟨q1, hm1, q2, hm2, heq⟩
          exact ⟨q1, hm1, q2, hm2, heq.trans (abs_sub_comm ((q2 : ℤ)) ((q1 : ℤ)))⟩

/-- C2 witness: term `a` at positions `[0, 10]`, rarer term `b` at `[4, 11]`;
the cross-product minimum is `1 = |10 - 11|`. -/
theorem C2_witness :
    ∃ d, find_distance ["a", "b"]
        ["a", "z", "z", "z", "b", "z", "z", "z", "z", "z", "a", "b"]
        [("a", 10), ("b", 5)] = .ok d ∧
      (∀ q1 ∈ getIndices "b" ["a", "z", "z", "z", "b", "z", "z", "z", "z", "z", "a", "b"],
        ∀ q2 ∈ getIndices "a" ["a", "z", "z", "z", "b", "z", "z", "z", "z", "z", "a", "b"],
        d ≤ |((q1 : ℤ)) - ((q2 : ℤ))|) ∧
      (∃ q1 ∈ getIndices "b" ["a", "z", "z", "z", "b", "z", "z", "z", "z", "z", "a", "b"],
        ∃ q2 ∈ getIndices "a" ["a", "z", "z", "z", "b", "z", "z", "z", "z", "z", "a", "b"],
        d = |((q1 : ℤ)) - ((q2 : ℤ))|) :=
  C2_cross_product_min ["a", "b"]
    ["a", "z", "z", "z", "b", "z", "z", "z", "z", "z", "a", "b"]
    [("a", 10), ("b", 5)] "b" "a" (by decide) (by decide) (by decide) (by decide)
    (by decide) (by decide) (by decide) (by decide) (by decide)

/-- C4: for every enumeration of a duplicate-free set of at least two
matching terms, all present in the frequency table, `_get_two_lowest`
returns two distinct matching terms ordered (lowest, second-lowest): the
first count is a minimum over all matching terms and the second a minimum
over the remaining ones. -/
theorem C4_two_lowest_selector (mt : List Term) (counts : FrequencyTable)
    (hlen : 2 ≤ mt.length) (hnd : mt.Nodup)
    (hall : ∀ t ∈ mt, (counts.lookup t).isSome) :
    ∃ t1 t2, get_two_lowest mt counts = .ok (t1, t2) ∧ t1 ∈ mt ∧ t2 ∈ mt ∧
      t1 ≠ t2 ∧ cnt counts t1 ≤ cnt counts t2 ∧
      (∀ t ∈ mt, t ≠ t1 → cnt counts t1 ≤ cnt counts t) ∧
      (∀ t ∈ mt, t ≠ t1 → t ≠ t2 → cnt counts t2 ≤ cnt counts t) := by
  obtain ⟨⟨t1, t2⟩, hgl⟩ := get_two_lowest_ok_of_present hlen hall
  obtain ⟨h1, h2, hne, hle, hmin⟩ := get_two_lowest_ok_spec hgl hnd
  refine ⟨t1, t2, hgl, h1, h2, hne, hle, ?_, hmin⟩
  intro t ht ht1
  by_cases ht2 : t = t2
  · rw [ht2]
    exact hle
  · exact le_trans hle (hmin t ht ht1 ht2)

/-- C4 witness: on counts `{a: 100, b: 5, c: 50}` the selector picks
`(b, c)`, and it does so for every iteration order of the set. -/
theorem C4_witness :
    (∃ t1 t2, get_two_lowest ["a", "b", "c"] [("a", 100), ("b", 5), ("c", 50)] =
        .ok (t1, t2) ∧
      t1 ∈ ["a", "b", "c"] ∧ t2 ∈ ["a", "b", "c"] ∧ t1 ≠ t2 ∧
      cnt [("a", 100), ("b", 5), ("c", 50)] t1 ≤ cnt [("a", 100), ("b", 5), ("c", 50)] t2 ∧
      (∀ t ∈ ["a", "b", "c"], t ≠ t1 →
        cnt [("a", 100), ("b", 5), ("c", 50)] t1 ≤ cnt [("a", 100), ("b", 5), ("c", 50)] t) ∧
      (∀ t ∈ ["a", "b", "c"], t ≠ t1 → t ≠ t2 →
        cnt [("a", 100), ("b", 5), ("c", 50)] t2 ≤ cnt [("a", 100), ("b", 5), ("c", 50)] t)) ∧
    get_two_lowest ["a", "b", "c"] [("a", 100), ("b", 5), ("c", 50)] = .ok ("b", "c") ∧
    get_two_lowest ["a", "c", "b"] [("a", 100), ("b", 5), ("c", 50)] = .ok ("b", "c") ∧
    get_two_lowest ["b", "a", "c"] [("a", 100), ("b", 5), ("c", 50)] = .ok ("b", "c") ∧
    get_two_lowest ["b", "c", "a"] [("a", 100), ("b", 5), ("c", 50)] = .ok ("b", "c") ∧
    get_two_lowest ["c", "a", "b"] [("a", 100), ("b", 5), ("c", 50)] = .ok ("b", "c") ∧
    get_two_lowest ["c", "b", "a"] [("a", 100), ("b", 5), ("c", 50)] = .ok ("b", "c") :=
  ⟨C4_two_lowest_selector ["a", "b", "c"] [("a", 100), ("b", 5), ("c", 50)]
      (by decide) (by decide) (by decide),
    by decide, by decide, by decide, by decide, by decide, by decide⟩

/-- C1: for a non-empty matching-terms set, positive distances, and frequency
tables in which every matching term carries a positive count and whose values
sum to a positive total, `vanilla` returns the natural logarithm of
`(target_weight + source_weight) / (target_distance + source_distance)`,
where each weight is the sum over the matching terms of `total / count`. -/
theorem C1_score_formula (mt : List Term) (sd td : ℤ) (sc tc : FrequencyTable)
    (hmt : mt ≠ []) (hsd : 0 < sd) (htd : 0 < td)
    (htc : ∀ t ∈ mt, ∃ c, tc.lookup t = some c ∧ 0 < c)
    (hsc : ∀ t ∈ mt, ∃ c, sc.lookup t = some c ∧ 0 < c)
    (hTt : 0 < totalCount tc) (hTs : 0 < totalCount sc) :
    vanilla mt sd td sc tc =
      .ok (Real.log (((specWeight tc mt + specWeight sc mt) /
        ((td : ℚ) + (sd : ℚ)) : ℚ) : ℝ)) :=
  vanilla_eval hmt hsd htd htc hsc (Nat.pos_iff_ne_zero.mp hTt) (Nat.pos_iff_ne_zero.mp hTs)

/-- C1 witness: the end-to-end example of the specification, whose score is
`ln 1.875`. -/
theorem C1_witness :
    vanilla ["love"] 5 3 [("love", 1), ("peace", 9)] [("love", 2), ("war", 8)] =
      .ok (Real.log 1.875) := by
  have h := C1_score_formula ["love"] 5 3 [("love", 1), ("peace", 9)]
    [("love", 2), ("war", 8)] (by decide) (by decide) (by decide)
    (by
      intro t ht
      rw [List.mem_singleton] at ht
      subst ht
      exact ⟨2, by decide, by decide⟩)
    (by
      intro t ht
      rw [List.mem_singleton] at ht
      subst ht
      exact ⟨1, by decide, by decide⟩)
    (by decide) (by decide)
  rw [h]
  have hv : ((specWeight [("love", 2), ("war", 8)] ["love"] +
      specWeight [("love", 1), ("peace", 9)] ["love"]) /
        (((3 : ℤ) : ℚ) + ((5 : ℤ) : ℚ)) : ℚ) = (15 : ℚ) / 8 := by
    have h1 : cnt [("love", 2), ("war", 8)] "love" = 2 := by decide
    have h2 : cnt [("love", 1), ("peace", 9)] "love" = 1 := by decide
    have h3 : totalCount [("love", 2), ("war", 8)] = 10 := by decide
    have h4 : totalCount [("love", 1), ("peace", 9)] = 10 := by decide
    rw [specWeight, specWeight, List.map_singleton, List.map_singleton,
      List.sum_singleton, List.sum_singleton, h1, h2, h3, h4]
    norm_num
  rw [hv]
  norm_num

section RawPlumbing

lemma vanillaRaw_target_error (mt : List Term) (sd td : ℤ) (sc tc : FrequencyTable)
    {e : PyError} (h : mapExcept (termWeight tc (totalCount tc)) mt = .error e) :
    vanillaRaw mt sd td sc tc = .error e := by
  simp only [vanillaRaw, h]

lemma vanillaRaw_source_error (mt : List Term) (sd td : ℤ) (sc tc : FrequencyTable)
    {e : PyError} {ws : List ℚ}
    (h1 : mapExcept (termWeight tc (totalCount tc)) mt = .ok ws)
    (h2 : mapExcept (termWeight sc (totalCount sc)) mt = .error e) :
    vanillaRaw mt sd td sc tc = .error e := by
  simp only [vanillaRaw, h1, h2]

lemma vanillaRaw_dzero (mt : List Term) (sd td : ℤ) (sc tc : FrequencyTable)
    {ws1 ws2 : List ℚ}
    (h1 : mapExcept (termWeight tc (totalCount tc)) mt = .ok ws1)
    (h2 : mapExcept (termWeight sc (totalCount sc)) mt = .ok ws2)
    (hd : td + sd = 0) :
    vanillaRaw mt sd td sc tc = .error .zeroDivisionError := by
  simp only [vanillaRaw, h1, h2, if_pos hd]

lemma vanillaRaw_ok_val (mt : List Term) (sd td : ℤ) (sc tc : FrequencyTable)
    {ws1 ws2 : List ℚ}
    (h1 : mapExcept (termWeight tc (totalCount tc)) mt = .ok ws1)
    (h2 : mapExcept (termWeight sc (totalCount sc)) mt = .ok ws2)
    (hd : ¬ td + sd = 0) :
    vanillaRaw mt sd td sc tc =
      .ok ((ws1.sum + ws2.sum) / (((td : ℚ)) + ((sd : ℚ)))) := by
  simp only [vanillaRaw, h1, h2, if_neg hd]

lemma vanillaRaw_ok_present (mt : List Term) (sd td : ℤ) (sc tc : FrequencyTable)
    (q : ℚ) (h : vanillaRaw mt sd td sc tc = .ok q) :
    ∀ t ∈ mt, (tc.lookup t).isSome ∧ (sc.lookup t).isSome := by
  intro t ht
  rcases h1 : mapExcept (termWeight tc (totalCount tc)) mt with e | ws1
  · rw [vanillaRaw_target_error mt sd td sc tc h1] at h
    cases h
  rcases h2 : mapExcept (termWeight sc (totalCount sc)) mt with e | ws2
  · rw [vanillaRaw_source_error mt sd td sc tc h1 h2] at h
    cases h
  obtain ⟨w1, hw1⟩ := mapExcept_ok_forall h1 t ht
  obtain ⟨w2, hw2⟩ := mapExcept_ok_forall h2 t ht
  exact ⟨termWeight_ok_lookup hw1, termWeight_ok_lookup hw2⟩

lemma vanillaRaw_swap (mt : List Term) (sd td : ℤ) (sc tc : FrequencyTable) (q : ℚ)
    (h : vanillaRaw mt sd td sc tc = .ok q) :
    vanillaRaw mt td sd tc sc = .ok q := by
  rcases h1 : mapExcept (termWeight tc (totalCount tc)) mt with e | ws1
  · rw [vanillaRaw_target_error mt sd td sc tc h1] at h
    cases h
  rcases h2 : mapExcept (termWeight sc (totalCount sc)) mt with e | ws2
  · rw [vanillaRaw_source_error mt sd td sc tc h1 h2] at h
    cases h
  by_cases hd : td + sd = 0
  · rw [vanillaRaw_dzero mt sd td sc tc h1 h2 hd] at h
    cases h
  · rw [vanillaRaw_ok_val mt sd td sc tc h1 h2 hd] at h
    have hd2 : ¬ sd + td = 0 := by omega
    rw [vanillaRaw_ok_val mt td sd tc sc h2 h1 hd2]
    have hval : (ws2.sum + ws1.sum) / (((sd : ℚ)) + ((td : ℚ))) =
        (ws1.sum + ws2.sum) / (((td : ℚ)) + ((sd : ℚ))) := by
      rw [add_comm ws2.sum ws1.sum, add_comm ((sd : ℚ)) ((td : ℚ))]
    rw [hval, Except.ok.inj h]

end RawPlumbing

/-- C7: with a non-empty matching-terms set all of whose terms are present in
both tables, `vanilla` fails with `ZeroDivisionError` — never a numeric
value — whenever the combined distance is zero or either table's values sum
to zero. -/
theorem C7_zero_division (mt : List Term) (sd td : ℤ) (sc tc : FrequencyTable)
    (hmt : mt ≠ [])
    (halltc : ∀ t ∈ mt, (tc.lookup t).isSome)
    (hallsc : ∀ t ∈ mt, (sc.lookup t).isSome)
    (hdeg : td + sd = 0 ∨ totalCount tc = 0 ∨ totalCount sc = 0) :
    vanilla mt sd td sc tc = .error .zeroDivisionError := by
  apply vanilla_of_raw_error
  rcases @mapExcept_termWeight_ok_or_zero tc (totalCount tc) mt halltc with ⟨ws1, h1⟩ | h1
  · rcases @mapExcept_termWeight_ok_or_zero sc (totalCount sc) mt hallsc with ⟨ws2, h2⟩ | h2
    · rcases hdeg with hd | hT | hT
      · exact vanillaRaw_dzero mt sd td sc tc h1 h2 hd
      · rw [hT] at h1
        rw [mapExcept_termWeight_size_zero hmt halltc] at h1
        cases h1
      · rw [hT] at h2
        rw [mapExcept_termWeight_size_zero hmt hallsc] at h2
        cases h2
    · exact vanillaRaw_source_error mt sd td sc tc h1 h2
  · exact vanillaRaw_target_error mt sd td sc tc h1

/-- C7 witness: both distances zero with well-formed tables. -/
theorem C7_witness :
    (["a"] : List Term) ≠ [] ∧ ((0 : ℤ) + 0 = 0) ∧
      vanilla ["a"] 0 0 [("a", 1)] [("a", 1)] = .error .zeroDivisionError :=
  ⟨by decide, by decide,
    C7_zero_division ["a"] 0 0 [("a", 1)] [("a", 1)] (by decide) (by decide) (by decide)
      (Or.inl (by decide))⟩

/-- C6 counterexample: the matching term is absent from `source_counts`, yet
the call fails with `ZeroDivisionError` (the term's zero count in
`target_counts` is reached first in evaluation order), not with the
missing-key error the claim requires for every such input. -/
theorem C6_counterexample :
    vanilla ["a"] 1 1 [] [("a", 0), ("b", 1)] = .error .zeroDivisionError ∧
      PyError.zeroDivisionError ≠ PyError.keyError := by
  constructor
  · apply vanilla_of_raw_error
    decide
  · decide

/-- C6 (amended): if some matching term is absent as a key from
`source_counts` or from `target_counts`, `vanilla` fails with an error
rather than returning a value; and when both totals are positive and every
matching term present in a table carries a positive count there, that error
is the missing-key error. -/
theorem C6_missing_key_error (mt : List Term) (sd td : ℤ) (sc tc : FrequencyTable)
    (hmiss : ∃ t ∈ mt, sc.lookup t = none ∨ tc.lookup t = none) :
    (∃ e, vanilla mt sd td sc tc = .error e) ∧
      (totalCount tc ≠ 0 → totalCount sc ≠ 0 →
        (∀ t ∈ mt, ∀ c, tc.lookup t = some c → 0 < c) →
        (∀ t ∈ mt, ∀ c, sc.lookup t = some c → 0 < c) →
        vanilla mt sd td sc tc = .error .keyError) := by
  constructor
  · rcases hv : vanilla mt sd td sc tc with e | x
    · exact ⟨e, rfl⟩
    · exfalso
      rcases hraw : vanillaRaw mt sd td sc tc with e | q
      · rw [vanilla, hraw] at hv
        cases hv
      · obtain ⟨t, ht, hcase⟩ := hmiss
        have hp := vanillaRaw_ok_present mt sd td sc tc q hraw t ht
        rcases hcase with hnone | hnone
        · rw [hnone] at hp
          exact absurd hp.2 (by simp)
        · rw [hnone] at hp
          exact absurd hp.1 (by simp)
  · intro hTt hTs hptc hpsc
    apply vanilla_of_raw_error
    by_cases hmtc : ∃ t ∈ mt, tc.lookup t = none
    · exact vanillaRaw_target_error mt sd td sc tc
        (mapExcept_termWeight_keyError hTt hptc hmtc)
    · push_neg at hmtc
      have halltc : ∀ t ∈ mt, ∃ c, tc.lookup t = some c ∧ 0 < c := by
        intro t ht
        rcases hl : tc.lookup t with _ | c
        · exact absurd hl (hmtc t ht)
        · exact ⟨c, rfl, hptc t ht c hl⟩
      have h1 := mapExcept_termWeight_ok hTt halltc
      have hmsc : ∃ t ∈ mt, sc.lookup t = none := by
        obtain ⟨t, ht, hcase⟩ := hmiss
        rcases hcase with hnone | hnone
        · exact ⟨t, ht, hnone⟩
        · exact absurd hnone (hmtc t ht)
      exact vanillaRaw_source_error mt sd td sc tc h1
        (mapExcept_termWeight_keyError hTs hpsc hmsc)

/-- C6 witness for the amended claim: with the term absent from the source
table only, the failure is the missing-key error. -/
theorem C6_witness :
    (∃ e, vanilla ["a"] 1 1 [("b", 3)] [("a", 2)] = .error e) ∧
      vanilla ["a"] 1 1 [("b", 3)] [("a", 2)] = .error .keyError := by
  have h := C6_missing_key_error ["a"] 1 1 [("b", 3)] [("a", 2)]
    ⟨"a", by decide, Or.inl (by decide)⟩
  refine ⟨h.1, h.2 (by decide) (by decide) ?_ ?_⟩
  · intro t ht c hc
    rw [List.mem_singleton] at ht
    subst ht
    rw [show List.lookup "a" [("a", 2)] = some 2 from by decide] at hc
    have h2 := Option.some.inj hc
    omega
  · intro t ht c hc
    rw [List.mem_singleton] at ht
    subst ht
    rw [show List.lookup "a" [("b", 3)] = none from by decide] at hc
    cases hc

/-- C10: on every input where the score is defined, swapping the two sides
(distances together with their count tables) leaves the score unchanged. -/
theorem C10_symmetry (mt : List Term) (sd td : ℤ) (sc tc : FrequencyTable) (x : ℝ)
    (h : vanilla mt sd td sc tc = .ok x) :
    vanilla mt td sd tc sc = .ok x := by
  rcases hraw : vanillaRaw mt sd td sc tc with e | q
  · rw [vanilla, hraw] at h
    cases h
  · simp only [vanilla, hraw] at h
    by_cases hq : q ≤ 0
    · rw [if_pos hq] at h
      cases h
    · rw [if_neg hq] at h
      have hswap := vanillaRaw_swap mt sd td sc tc q hraw
      simp only [vanilla, hswap]
      rw [if_neg hq]
      exact h

/-- C10 witness: the end-to-end example evaluated on both orientations. -/
theorem C10_witness :
    vanilla ["love"] 3 5 [("love", 2), ("war", 8)] [("love", 1), ("peace", 9)] =
      .ok (Real.log (((specWeight [("love", 2), ("war", 8)] ["love"] +
        specWeight [("love", 1), ("peace", 9)] ["love"]) /
          (((3 : ℤ) : ℚ) + ((5 : ℤ) : ℚ)) : ℚ) : ℝ)) := by
  have h : vanilla ["love"] 5 3 [("love", 1), ("peace", 9)] [("love", 2), ("war", 8)] =
      .ok (Real.log (((specWeight [("love", 2), ("war", 8)] ["love"] +
        specWeight [("love", 1), ("peace", 9)] ["love"]) /
          (((3 : ℤ) : ℚ) + ((5 : ℤ) : ℚ)) : ℚ) : ℝ)) := by
    apply vanilla_eval (by decide) (by decide) (by decide)
    · intro t ht
      rw [List.mem_singleton] at ht
      subst ht
      exact ⟨2, by decide, by decide⟩
    · intro t ht
      rw [List.mem_singleton] at ht
      subst ht
      exact ⟨1, by decide, by decide⟩
    · decide
    · decide
  exact C10_symmetry ["love"] 5 3 [("love", 1), ("peace", 9)] [("love", 2), ("war", 8)] _ h

lemma specWeight_cons (counts : FrequencyTable) (t : Term) (rest : List Term) :
    specWeight counts (t :: rest) =
      (totalCount counts : ℚ) / (cnt counts t : ℚ) + specWeight counts rest := by
  rw [specWeight, List.map_cons, List.sum_cons, specWeight]

lemma cnt_pos_of_lookup {counts : FrequencyTable} {t : Term}
    (h : ∃ c, counts.lookup t = some c ∧ 0 < c) : 0 < cnt counts t := by
  obtain ⟨c, hl, hc⟩ := h
  rw [cnt_eq_of_lookup hl]
  exact hc

/-- C5: with all matching terms present in both tables with positive counts
and positive totals: (a) holding the terms and tables fixed, strictly
decreasing the combined distance strictly increases the returned score;
(b) holding the distances fixed, replacing one matching term by a term of
strictly lower whole-text frequency in both tables strictly increases the
returned score. -/
theorem C5_monotonicity :
    (∀ (mt : List Term) (sc tc : FrequencyTable) (sd1 td1 sd2 td2 : ℤ),
      mt ≠ [] →
      (∀ t ∈ mt, ∃ c, tc.lookup t = some c ∧ 0 < c) →
      (∀ t ∈ mt, ∃ c, sc.lookup t = some c ∧ 0 < c) →
      totalCount tc ≠ 0 → totalCount sc ≠ 0 →
      0 < sd1 → 0 < td1 → 0 < sd2 → 0 < td2 →
      td1 + sd1 < td2 + sd2 →
      ∃ x1 x2 : ℝ, vanilla mt sd1 td1 sc tc = .ok x1 ∧
        vanilla mt sd2 td2 sc tc = .ok x2 ∧ x2 < x1) ∧
    (∀ (u v : Term) (rest : List Term) (sc tc : FrequencyTable) (sd td : ℤ),
      0 < sd → 0 < td →
      (∀ t ∈ u :: rest, ∃ c, tc.lookup t = some c ∧ 0 < c) →
      (∀ t ∈ u :: rest, ∃ c, sc.lookup t = some c ∧ 0 < c) →
      (∃ c, tc.lookup v = some c ∧ 0 < c) →
      (∃ c, sc.lookup v = some c ∧ 0 < c) →
      totalCount tc ≠ 0 → totalCount sc ≠ 0 →
      (cnt tc v : ℚ) / (totalCount tc : ℚ) < (cnt tc u : ℚ) / (totalCount tc : ℚ) →
      (cnt sc v : ℚ) / (totalCount sc : ℚ) < (cnt sc u : ℚ) / (totalCount sc : ℚ) →
      ∃ x1 x2 : ℝ, vanilla (u :: rest) sd td sc tc = .ok x1 ∧
        vanilla (v :: rest) sd td sc tc = .ok x2 ∧ x1 < x2) := by
  constructor
  · intro mt sc tc sd1 td1 sd2 td2 hmt htc hsc hTt hTs hsd1 htd1 hsd2 htd2 hlt
    have hW : 0 < specWeight tc mt + specWeight sc mt :=
      add_pos (specWeight_pos hmt hTt htc) (specWeight_pos hmt hTs hsc)
    have hd1 : (0 : ℚ) < ((td1 : ℚ)) + ((sd1 : ℚ)) := by
      have e1 : (0 : ℚ) < ((td1 : ℚ)) := by exact_mod_cast htd1
      have e2 : (0 : ℚ) < ((sd1 : ℚ)) := by exact_mod_cast hsd1
      exact add_pos e1 e2
    have hd2 : (0 : ℚ) < ((td2 : ℚ)) + ((sd2 : ℚ)) := by
      have e1 : (0 : ℚ) < ((td2 : ℚ)) := by exact_mod_cast htd2
      have e2 : (0 : ℚ) < ((sd2 : ℚ)) := by exact_mod_cast hsd2
      exact add_pos e1 e2
    have hdd : ((td1 : ℚ)) + ((sd1 : ℚ)) < ((td2 : ℚ)) + ((sd2 : ℚ)) := by
      exact_mod_cast hlt
    refine ⟨_, _, vanilla_eval hmt hsd1 htd1 htc hsc hTt hTs,
      vanilla_eval hmt hsd2 htd2 htc hsc hTt hTs, ?_⟩
    apply Real.log_lt_log
    · exact_mod_cast div_pos hW hd2
    · exact_mod_cast div_lt_div_of_pos_left hW hd1 hdd
  · intro u v rest sc tc sd td hsd htd htcu hscu htcv hscv hTt hTs hft hfs
    have htcv2 : ∀ t ∈ v :: rest, ∃ c, tc.lookup t = some c ∧ 0 < c := by
      intro t ht
      rcases List.mem_cons.mp ht with h | h
      · rw [h]; exact htcv
      · exact htcu t (List.mem_cons_of_mem u h)
    have hscv2 : ∀ t ∈ v :: rest, ∃ c, sc.lookup t = some c ∧ 0 < c := by
      intro t ht
      rcases List.mem_cons.mp ht with h | h
      · rw [h]; exact hscv
      · exact hscu t (List.mem_cons_of_mem u h)
    have hTtq : (0 : ℚ) < (totalCount tc : ℚ) := by
      exact_mod_cast Nat.pos_of_ne_zero hTt
    have hTsq : (0 : ℚ) < (totalCount sc : ℚ) := by
      exact_mod_cast Nat.pos_of_ne_zero hTs
    have hcvt : (0 : ℚ) < (cnt tc v : ℚ) := by
      exact_mod_cast cnt_pos_of_lookup htcv
    have hcvs : (0 : ℚ) < (cnt sc v : ℚ) := by
      exact_mod_cast cnt_pos_of_lookup hscv
    have hlt_t : (cnt tc v : ℚ) < (cnt tc u : ℚ) :=
      (div_lt_div_iff_of_pos_right hTtq).mp hft
    have hlt_s : (cnt sc v : ℚ) < (cnt sc u : ℚ) :=
      (div_lt_div_iff_of_pos_right hTsq).mp hfs
    have hwt : (totalCount tc : ℚ) / (cnt tc u : ℚ) <
        (totalCount tc : ℚ) / (cnt tc v : ℚ) :=
      div_lt_div_of_pos_left hTtq hcvt hlt_t
    have hws : (totalCount sc : ℚ) / (cnt sc u : ℚ) <
        (totalCount sc : ℚ) / (cnt sc v : ℚ) :=
      div_lt_div_of_pos_left hTsq hcvs hlt_s
    have hWlt : specWeight tc (u :: rest) + specWeight sc (u :: rest) <
        specWeight tc (v :: rest) + specWeight sc (v :: rest) := by
      rw [specWeight_cons tc u rest, specWeight_cons sc u rest,
        specWeight_cons tc v rest, specWeight_cons sc v rest]
      exact add_lt_add (add_lt_add_right hwt (specWeight tc rest))
        (add_lt_add_right hws (specWeight sc rest))
    have hDq : (0 : ℚ) < ((td : ℚ)) + ((sd : ℚ)) := by
      have e1 : (0 : ℚ) < ((td : ℚ)) := by exact_mod_cast htd
      have e2 : (0 : ℚ) < ((sd : ℚ)) := by exact_mod_cast hsd
      exact add_pos e1 e2
    have hW1 : 0 < specWeight tc (u :: rest) + specWeight sc (u :: rest) :=
      add_pos (specWeight_pos (List.cons_ne_nil u rest) hTt htcu)
        (specWeight_pos (List.cons_ne_nil u rest) hTs hscu)
    refine ⟨_, _, vanilla_eval (List.cons_ne_nil u rest) hsd htd htcu hscu hTt hTs,
      vanilla_eval (List.cons_ne_nil v rest) hsd htd htcv2 hscv2 hTt hTs, ?_⟩
    apply Real.log_lt_log
    · exact_mod_cast div_pos hW1 hDq
    · exact_mod_cast (div_lt_div_iff_of_pos_right hDq).mpr hWlt

/-- C5 witness: the distance part on the end-to-end example, and the rarity
part replacing `love` (count 2 of 10) by `rare` (count 1 of 10). -/
theorem C5_witness :
    (∃ x1 x2 : ℝ,
      vanilla ["love"] 1 1 [("love", 1), ("peace", 9)] [("love", 2), ("war", 8)] = .ok x1 ∧
      vanilla ["love"] 5 3 [("love", 1), ("peace", 9)] [("love", 2), ("war", 8)] = .ok x2 ∧
      x2 < x1) ∧
    (∃ x1 x2 : ℝ,
      vanilla ["love"] 1 1 [("love", 2), ("rare", 1), ("peace", 7)]
        [("love", 2), ("rare", 1), ("war", 7)] = .ok x1 ∧
      vanilla ["rare"] 1 1 [("love", 2), ("rare", 1), ("peace", 7)]
        [("love", 2), ("rare", 1), ("war", 7)] = .ok x2 ∧
      x1 < x2) := by
  constructor
  · apply C5_monotonicity.1 ["love"] [("love", 1), ("peace", 9)] [("love", 2), ("war", 8)]
      1 1 5 3 (by decide)
    · intro t ht
      rw [List.mem_singleton] at ht
      subst ht
      exact ⟨2, by decide, by decide⟩
    · intro t ht
      rw [List.mem_singleton] at ht
      subst ht
      exact ⟨1, by decide, by decide⟩
    · decide
    · decide
    · decide
    · decide
    · decide
    · decide
    · decide
  · apply C5_monotonicity.2 "love" "rare" [] [("love", 2), ("rare", 1), ("peace", 7)]
      [("love", 2), ("rare", 1), ("war", 7)] 1 1 (by decide) (by decide)
    · intro t ht
      rw [List.mem_singleton] at ht
      subst ht
      exact ⟨2, by decide, by decide⟩
    · intro t ht
      rw [List.mem_singleton] at ht
      subst ht
      exact ⟨2, by decide, by decide⟩
    · exact ⟨1, by decide, by decide⟩
    · exact ⟨1, by decide, by decide⟩
    · decide
    · decide
    · rw [show cnt [("love", 2), ("rare", 1), ("war", 7)] "rare" = 1 from by decide,
        show cnt [("love", 2), ("rare", 1), ("war", 7)] "love" = 2 from by decide,
        show totalCount [("love", 2), ("rare", 1), ("war", 7)] = 10 from by decide]
      norm_num
    · rw [show cnt [("love", 2), ("rare", 1), ("peace", 7)] "rare" = 1 from by decide,
        show cnt [("love", 2), ("rare", 1), ("peace", 7)] "love" = 2 from by decide,
        show totalCount [("love", 2), ("rare", 1), ("peace", 7)] = 10 from by decide]
      norm_num
